import Mathlib

/-! The vector of se_containers: `se_detail::vector_buf` and `se::vector`
(src/vector/vector.h).

A shallow embedding of the vector header and a verification of its documented
behaviour.

Modelling conventions.

* `std::size_t` is `Nat`.  A buffer of `n` slots only exists after `new T[n]`
  succeeded, which bounds `n * sizeof(T)` by the address space, so `2 * size_`
  in `push_back` cannot wrap; allocation is taken to succeed.
* `T* buf_` is `Option (List T)`: `none` is `nullptr`, `some a` points to a heap
  array whose slots are the entries of `a`.
* `new T[n]` default-constructs its `n` slots, hence `[Inhabited T]`.
* A call ends by returning (`Except.ok`), by throwing `std::runtime_error`
  (`fault.runtime_error what`), or by reading or writing outside an allocated
  array (`fault.undefined_behaviour`).
* `for (i = a; i < b; ++i)` with a loop-invariant bound is `for_loop body (b - a) a`.
* A member function takes the object as `this` and returns the object as the
  call leaves it together with how the call ended; when the call throws, the
  object returned is `*this` at the `throw`.  A constructor taking another
  object returns that argument as the call leaves it, and the new object when
  construction completed.
-/

namespace se_detail

/-- How a call ends when it does not return normally. -/
inductive fault where
  | runtime_error (what : String)
  | undefined_behaviour
  deriving DecidableEq, Repr

/-- The exception `reserve` throws (vector.h:93), which the specification
names `InvalidArgument`. -/
def InvalidArgument : fault :=
  .runtime_error "New capacity is less that the current size of the vector."

/-- The exception `operator[]` throws (vector.h:170), which the specification
names `OutOfRange`. -/
def OutOfRange : fault :=
  .runtime_error "Index is out of range."

/-- The data members of `se_detail::vector_buf<T>` (vector.h:14-16). -/
structure vector_buf (T : Type) where
  size_ : Nat
  capacity_ : Nat
  buf_ : Option (List T)
  deriving DecidableEq, Repr

variable {T : Type}

/-- The expression `p[i]` used as a value. -/
def load (p : Option (List T)) (i : Nat) : Except fault T :=
  match p with
  | none => .error .undefined_behaviour
  | some a =>
    match a[i]? with
    | some x => .ok x
    | none => .error .undefined_behaviour

/-- The assignment `p[i] = x`. -/
def store (p : Option (List T)) (i : Nat) (x : T) : Except fault (Option (List T)) :=
  match p with
  | none => .error .undefined_behaviour
  | some a => if i < a.length then .ok (some (a.set i x)) else .error .undefined_behaviour

/-- The expression `new T[n]`: a fresh array of `n` default-constructed slots. -/
def new_array [Inhabited T] (n : Nat) : Option (List T) :=
  some (List.replicate n default)

/-- Counted loop `for (i = start; i < start + n; ++i) body(i)`; the first
argument after the body is the number of iterations left. -/
def for_loop {σ : Type} (body : Nat → σ → Except fault σ) : Nat → Nat → σ → Except fault σ
  | 0, _, s => .ok s
  | n + 1, i, s => body i s >>= for_loop body n (i + 1)

/-- `vector_buf::swap` (vector.h:19-23): returns `(*this, rhs)` after the exchange. -/
def vector_buf.swap (this rhs : vector_buf T) : vector_buf T × vector_buf T :=
  let (b1, b2) := (rhs.buf_, this.buf_)
  let (s1, s2) := (rhs.size_, this.size_)
  let (c1, c2) := (rhs.capacity_, this.capacity_)
  ({ size_ := s1, capacity_ := c1, buf_ := b1 }, { size_ := s2, capacity_ := c2, buf_ := b2 })

/-- `vector_buf()` (vector.h:25). -/
def vector_buf.ctor_default : vector_buf T :=
  { size_ := 0, capacity_ := 0, buf_ := none }

/-- One iteration `dst.buf_[i] = src[i]` of the element-transfer loops
(vector.h:50 by copy, vector.h:110 by move; the moved-from array is destroyed
with the temporary, so only the transferred value is observable). -/
def transfer_body (src : Option (List T)) (i : Nat) (dst : vector_buf T) :
    Except fault (vector_buf T) := do
  let x ← load src i
  let p ← store dst.buf_ i x
  pure { dst with buf_ := p }

/-- `vector_buf::reserve` (vector.h:90-118): `*this` after the call and how
the call ended.  The temporary `tmp_buf` is destroyed when the call ends,
whether by `return` or by unwinding. -/
def vector_buf.reserve [Inhabited T] (this : vector_buf T) (new_capacity : Nat) :
    vector_buf T × Except fault Unit :=
  if new_capacity < this.size_ then
    (this, .error (.runtime_error "New capacity is less that the current size of the vector."))
  else if _h1 : new_capacity ≠ 0 ∧ this.capacity_ = 0 then
    ({ this with buf_ := new_array new_capacity, capacity_ := new_capacity }, .ok ())
  else if _h2 : this.capacity_ < new_capacity then
    let tmp_buf : vector_buf T := vector_buf.ctor_default
    let (tmp_buf, r) := tmp_buf.reserve new_capacity
    let filled : Except fault (vector_buf T) := do
      r
      if this.size_ ≠ 0 then do
        let b ← for_loop (transfer_body this.buf_) (this.size_ - 0) 0 tmp_buf
        pure { b with size_ := this.size_ }
      else pure tmp_buf
    match filled with
    | .error e => (this, .error e)
    | .ok tmp_buf => ((this.swap tmp_buf).1, .ok ())
  else
    (this, .ok ())
termination_by this.capacity_
decreasing_by
  simp only [vector_buf.ctor_default]
  omega

/-- One iteration `tmp_buf.buf_[i] = element` of the fill loop (vector.h:32). -/
def fill_body (element : T) (i : Nat) (dst : vector_buf T) : Except fault (vector_buf T) := do
  let p ← store dst.buf_ i element
  pure { dst with buf_ := p }

/-- `vector_buf(std::size_t size, T element)` (vector.h:27-38): the new object. -/
def vector_buf.ctor_fill [Inhabited T] (size : Nat) (element : T) :
    Except fault (vector_buf T) :=
  let this : vector_buf T := { size_ := size, capacity_ := size, buf_ := none }
  let tmp_buf : vector_buf T := vector_buf.ctor_default
  let (tmp_buf, r) := tmp_buf.reserve size
  do
    r
    let tmp_buf ← for_loop (fill_body element) (size - 0) 0 tmp_buf
    let tmp_buf := { tmp_buf with size_ := size }
    let (this, _tmp_buf) := this.swap tmp_buf
    pure this

/-- `vector_buf(const vector_buf& rhs)` (vector.h:40-57): `rhs` after the call
and the new object. -/
def vector_buf.ctor_copy [Inhabited T] (rhs : vector_buf T) :
    vector_buf T × Except fault (vector_buf T) :=
  let this : vector_buf T := { size_ := 0, capacity_ := 0, buf_ := none }
  let tmp_buf : vector_buf T := vector_buf.ctor_default
  let (tmp_buf, r) :=
    if rhs.capacity_ ≠ 0 then tmp_buf.reserve rhs.capacity_ else (tmp_buf, .ok ())
  (rhs, do
    r
    let tmp_buf ←
      if rhs.size_ ≠ 0 then do
        let b ← for_loop (transfer_body rhs.buf_) (rhs.size_ - 0) 0 tmp_buf
        pure { b with size_ := rhs.size_ }
      else pure tmp_buf
    let (this, _tmp_buf) := this.swap tmp_buf
    pure this)

/-- `vector_buf(vector_buf&& rhs)` (vector.h:59-61): the moved-from `rhs` and
the new object. -/
def vector_buf.ctor_move (rhs : vector_buf T) : vector_buf T × vector_buf T :=
  ({ rhs with buf_ := none },
   { size_ := rhs.size_, capacity_ := rhs.capacity_, buf_ := rhs.buf_ })

/-- `vector_buf::clear` (vector.h:63-65), `noexcept`. -/
def vector_buf.clear (this : vector_buf T) : vector_buf T :=
  { this with size_ := 0 }

/-- The search loop of `erase` (vector.h:71-74): the value of `i` when the loop
is left, with `n` iterations left before `i` reaches `size_`. -/
def erase_find [BEq T] (buf_ : Option (List T)) (element : T) : Nat → Nat → Except fault Nat
  | 0, i => .ok i
  | n + 1, i => do
    let x ← load buf_ i
    if x == element then pure i else erase_find buf_ element n (i + 1)

/-- One iteration `std::swap(buf_[j], buf_[j+1])` of the shifting loop of
`erase` (vector.h:82). -/
def erase_shift_body (j : Nat) (this : vector_buf T) : Except fault (vector_buf T) := do
  let x ← load this.buf_ j
  let y ← load this.buf_ (j + 1)
  let p ← store this.buf_ j y
  let p ← store p (j + 1) x
  pure { this with buf_ := p }

/-- `vector_buf::erase` (vector.h:68-88): `*this` after the call and how the
call ended. -/
def vector_buf.erase [BEq T] (this : vector_buf T) (element : T) :
    vector_buf T × Except fault Unit :=
  match erase_find this.buf_ element (this.size_ - 0) 0 with
  | .error e => (this, .error e)
  | .ok i =>
    if i ≠ this.size_ then
      let shifted : Except fault (vector_buf T) :=
        if i ≠ this.size_ - 1 then
          for_loop erase_shift_body (this.size_ - 1 - i) i this
        else pure this
      match shifted with
      | .error e => (this, .error e)
      | .ok this => ({ this with size_ := this.size_ - 1 }, .ok ())
    else (this, .ok ())

/-- `vector_buf::capacity` (vector.h:120-122). -/
def vector_buf.capacity (this : vector_buf T) : Nat := this.capacity_

/-- `vector_buf::size` (vector.h:124-126). -/
def vector_buf.size (this : vector_buf T) : Nat := this.size_

/-- The number of executions of the relocating assignment
`tmp_buf.buf_[i] = T(std::move(buf_[i]))` (vector.h:110) in one call
`this.reserve(new_capacity)`: the trip count of the loop at vector.h:109 on the
path that reaches it.  The nested `tmp_buf.reserve(new_capacity)` runs on an
empty buffer and returns from the branch at vector.h:96-100. -/
def vector_buf.reserve_relocations (this : vector_buf T) (new_capacity : Nat) : Nat :=
  if new_capacity < this.size_ then 0
  else if new_capacity ≠ 0 ∧ this.capacity_ = 0 then 0
  else if this.capacity_ < new_capacity then
    if this.size_ ≠ 0 then this.size_ - 0 else 0
  else 0

/-- The member names `class vector_buf` declares (vector.h:14-130): its data
members, `swap`, its constructors, `clear`, `erase`, `reserve`, `capacity`,
`size` and its destructor.  The class has no base class. -/
def vector_buf.declared_members : List String :=
  ["size_", "capacity_", "buf_", "swap", "vector_buf", "clear", "erase", "reserve",
   "capacity", "size", "~vector_buf"]

/-- The representation invariant of a live buffer: `size_ ≤ capacity_`, and
`buf_` is null exactly when `capacity_` is zero and otherwise points to an
array of `capacity_` slots. -/
def vector_buf.inv (b : vector_buf T) : Prop :=
  b.size_ ≤ b.capacity_ ∧
    match b.buf_ with
    | none => b.capacity_ = 0
    | some a => b.capacity_ ≠ 0 ∧ a.length = b.capacity_

instance (b : vector_buf T) : Decidable b.inv := by
  unfold vector_buf.inv
  cases b.buf_ <;> exact inferInstance

/-- The logical contents: the slots at indices `[0, size_)`. -/
def vector_buf.contents (b : vector_buf T) : List T :=
  match b.buf_ with
  | none => []
  | some a => a.take b.size_

end se_detail

namespace se

open se_detail

variable {T : Type}

/-- `se::vector<T>` derives from `vector_buf<T>` and adds no data member
(vector.h:137). -/
abbrev vector (T : Type) := vector_buf T

/-- `vector()` (vector.h:148). -/
def vector.ctor_default : vector T := vector_buf.ctor_default

/-- `vector(std::size_t size, T element)` (vector.h:150). -/
def vector.ctor_fill [Inhabited T] (size : Nat) (element : T) : Except fault (vector T) :=
  vector_buf.ctor_fill size element

/-- `vector(const vector& rhs)` (vector.h:152): `rhs` after the call and the
new object. -/
def vector.ctor_copy [Inhabited T] (rhs : vector T) : vector T × Except fault (vector T) :=
  vector_buf.ctor_copy rhs

/-- `vector(vector&& rhs)` (vector.h:154): `rhs` after the call and the new
object.  The base initialiser `vector_buf<T>(rhs)` names the parameter, an
lvalue, so overload resolution selects `vector_buf(const vector_buf&)`. -/
def vector.ctor_move [Inhabited T] (rhs : vector T) : vector T × Except fault (vector T) :=
  vector_buf.ctor_copy rhs

/-- `vector::operator=(const vector& rhs)` (vector.h:156-160), for `rhs` an
object other than `*this`: `*this` and `rhs` after the call, and how it ended. -/
def vector.operator_assign [Inhabited T] (this rhs : vector T) :
    vector T × vector T × Except fault Unit :=
  let (rhs, r) := vector.ctor_copy rhs
  match r with
  | .error e => (this, rhs, .error e)
  | .ok tmp_vec =>
    let (this, _tmp_vec) := vector_buf.swap this tmp_vec
    (this, rhs, .ok ())

/-- `a = a`: `operator=(const vector&)` with `rhs` bound to `*this`.  The one
object is read as `rhs` by the copy and then receives the swap. -/
def vector.operator_assign_self [Inhabited T] (this : vector T) :
    vector T × Except fault Unit :=
  let (this, r) := vector.ctor_copy this
  match r with
  | .error e => (this, .error e)
  | .ok tmp_vec =>
    let (this, _tmp_vec) := vector_buf.swap this tmp_vec
    (this, .ok ())

/-- `vector::operator=(vector&& rhs)` (vector.h:162-166), for `rhs` an object
other than `*this`: `vector tmp_vec(rhs)` names the parameter, an lvalue, so
`vector(const vector&)` is the constructor called. -/
def vector.operator_assign_move [Inhabited T] (this rhs : vector T) :
    vector T × vector T × Except fault Unit :=
  let (rhs, r) := vector.ctor_copy rhs
  match r with
  | .error e => (this, rhs, .error e)
  | .ok tmp_vec =>
    let (this, _tmp_vec) := vector_buf.swap this tmp_vec
    (this, rhs, .ok ())

/-- `vector::operator[]` (vector.h:168-173), a `const` member: the object and
the element referred to. -/
def vector.operator_index (this : vector T) (index : Nat) : vector T × Except fault T :=
  if index ≥ this.size_ then
    (this, .error (.runtime_error "Index is out of range."))
  else
    (this, load this.buf_ index)

/-- `vector::reserve` (vector.h:190-192). -/
def vector.reserve [Inhabited T] (this : vector T) (new_capacity : Nat) :
    vector T × Except fault Unit :=
  vector_buf.reserve this new_capacity

/-- `vector::push_back` (vector.h:175-188). -/
def vector.push_back [Inhabited T] (this : vector T) (element : T) :
    vector T × Except fault Unit :=
  let (this, r) :=
    if this.size_ = 0 then
      vector.reserve this 1
    else if this.size_ = this.capacity_ then
      vector.reserve this (2 * this.size_)
    else (this, .ok ())
  match r with
  | .error e => (this, .error e)
  | .ok _ =>
    match store this.buf_ this.size_ element with
    | .error e => (this, .error e)
    | .ok p => ({ this with buf_ := p, size_ := this.size_ + 1 }, .ok ())

/-- `vector::erase` (vector.h:195-197). -/
def vector.erase [BEq T] (this : vector T) (element : T) : vector T × Except fault Unit :=
  vector_buf.erase this element

/-- The member of `vector_buf<T>` that the body of `vector::empty`
(vector.h:199-201) calls: `return se_detail::vector_buf<T>::empty();`. -/
def vector.empty_callee : String := "empty"

/-- `vector::capacity` (vector.h:203-205). -/
def vector.capacity (this : vector T) : Nat := this.capacity_

/-- `vector::size` (vector.h:207-209). -/
def vector.size (this : vector T) : Nat := vector_buf.size this

/-- `vector::clear` (vector.h:211-213), `noexcept`. -/
def vector.clear (this : vector T) : vector T := vector_buf.clear this

/-- A run of `push_back(v1), ..., push_back(vn)` in order, stopping at the
first call that does not return. -/
def vector.push_back_all [Inhabited T] (this : vector T) :
    List T → vector T × Except fault Unit
  | [] => (this, .ok ())
  | x :: xs =>
    match vector.push_back this x with
    | (this, .error e) => (this, .error e)
    | (this, .ok _) => vector.push_back_all this xs

/-- The relocations (vector.h:110) performed by one `push_back` on `this`:
those of the `reserve` call it makes, if any (vector.h:177-185). -/
def vector.push_back_relocations (this : vector T) : Nat :=
  if this.size_ = 0 then
    vector_buf.reserve_relocations this 1
  else if this.size_ = this.capacity_ then
    vector_buf.reserve_relocations this (2 * this.size_)
  else 0

/-- The relocations performed in total by `push_back(v1), ..., push_back(vn)`. -/
def vector.push_back_all_relocations [Inhabited T] (this : vector T) : List T → Nat
  | [] => 0
  | x :: xs =>
    vector.push_back_relocations this +
      vector.push_back_all_relocations (vector.push_back this x).1 xs

/-- The states an `se::vector` object can be in: those its constructors
produce, and those a public member call leaves an object in, whether the call
returned or threw. -/
inductive vector.reachable [Inhabited T] [BEq T] : vector T → Prop
  | ctor_default : vector.reachable vector.ctor_default
  | ctor_fill (size : Nat) (element : T) (v : vector T) :
      vector.ctor_fill size element = .ok v → vector.reachable v
  | ctor_copy (rhs v : vector T) :
      vector.reachable rhs → (vector.ctor_copy rhs).2 = .ok v → vector.reachable v
  | ctor_copy_arg (rhs : vector T) :
      vector.reachable rhs → vector.reachable (vector.ctor_copy rhs).1
  | ctor_move (rhs v : vector T) :
      vector.reachable rhs → (vector.ctor_move rhs).2 = .ok v → vector.reachable v
  | ctor_move_arg (rhs : vector T) :
      vector.reachable rhs → vector.reachable (vector.ctor_move rhs).1
  | operator_assign (this rhs : vector T) :
      vector.reachable this → vector.reachable rhs →
        vector.reachable (vector.operator_assign this rhs).1
  | operator_assign_arg (this rhs : vector T) :
      vector.reachable this → vector.reachable rhs →
        vector.reachable (vector.operator_assign this rhs).2.1
  | operator_assign_self (this : vector T) :
      vector.reachable this → vector.reachable (vector.operator_assign_self this).1
  | operator_assign_move (this rhs : vector T) :
      vector.reachable this → vector.reachable rhs →
        vector.reachable (vector.operator_assign_move this rhs).1
  | operator_assign_move_arg (this rhs : vector T) :
      vector.reachable this → vector.reachable rhs →
        vector.reachable (vector.operator_assign_move this rhs).2.1
  | operator_index (this : vector T) (index : Nat) :
      vector.reachable this → vector.reachable (vector.operator_index this index).1
  | push_back (this : vector T) (element : T) :
      vector.reachable this → vector.reachable (vector.push_back this element).1
  | reserve (this : vector T) (new_capacity : Nat) :
      vector.reachable this → vector.reachable (vector.reserve this new_capacity).1
  | erase (this : vector T) (element : T) :
      vector.reachable this → vector.reachable (vector.erase this element).1
  | clear (this : vector T) :
      vector.reachable this → vector.reachable (vector.clear this)

end se

open se_detail se

/-! ## Lemmas on the buffer operations -/

namespace se_detail

variable {T : Type}

theorem load_some (a : List T) (i : Nat) (h : i < a.length) : load (some a) i = .ok a[i] := by
  simp [load, List.getElem?_eq_getElem h]

theorem store_some (a : List T) (i : Nat) (x : T) (h : i < a.length) :
    store (some a) i x = .ok (some (a.set i x)) := by
  simp [store, h]

theorem reserve_default [Inhabited T] (n : Nat) (hn : n ≠ 0) :
    (vector_buf.ctor_default : vector_buf T).reserve n
      = ({ size_ := 0, capacity_ := n, buf_ := new_array n }, .ok ()) := by
  rw [vector_buf.reserve]
  simp [vector_buf.ctor_default, hn]

theorem reserve_default_zero [Inhabited T] :
    (vector_buf.ctor_default : vector_buf T).reserve 0 = (vector_buf.ctor_default, .ok ()) := by
  rw [vector_buf.reserve]
  simp [vector_buf.ctor_default]

theorem reserve_lt [Inhabited T] (this : vector_buf T) (n : Nat) (h : n < this.size_) :
    this.reserve n =
      (this, .error (.runtime_error "New capacity is less that the current size of the vector.")) := by
  rw [vector_buf.reserve]
  simp [h]

theorem reserve_first [Inhabited T] (this : vector_buf T) (n : Nat) (h : ¬ n < this.size_)
    (hn : n ≠ 0) (hc : this.capacity_ = 0) :
    this.reserve n = ({ this with buf_ := new_array n, capacity_ := n }, .ok ()) := by
  rw [vector_buf.reserve]
  simp [h, hn, hc]

theorem reserve_le [Inhabited T] (this : vector_buf T) (n : Nat) (h : ¬ n < this.size_)
    (hc : ¬ (n ≠ 0 ∧ this.capacity_ = 0)) (hn : ¬ this.capacity_ < n) :
    this.reserve n = (this, .ok ()) := by
  rw [vector_buf.reserve]
  simp only [h, hc, hn, if_false, dite_false]

theorem reserve_grow [Inhabited T] (this : vector_buf T) (n : Nat) (h : ¬ n < this.size_)
    (hc : this.capacity_ ≠ 0) (hn : this.capacity_ < n) :
    this.reserve n =
      match (if this.size_ ≠ 0 then
               for_loop (transfer_body this.buf_) this.size_ 0
                 { size_ := 0, capacity_ := n, buf_ := new_array n } >>= fun b =>
                   pure { b with size_ := this.size_ }
             else pure { size_ := 0, capacity_ := n, buf_ := new_array n } :
               Except fault (vector_buf T)) with
      | .error e => (this, .error e)
      | .ok tmp_buf => ((this.swap tmp_buf).1, .ok ()) := by
  rw [vector_buf.reserve]
  have h1 : ¬ (n ≠ 0 ∧ this.capacity_ = 0) := by omega
  have hn0 : n ≠ 0 := by omega
  simp only [h, h1, hn, if_false, dite_false, dite_true, reserve_default n hn0]
  by_cases hs : this.size_ = 0
  · simp [hs, bind, Except.bind, pure, Except.pure]
  · simp only [hs, bind, Except.bind, pure, Except.pure, Nat.sub_zero, ne_eq, not_false_eq_true,
      if_true]

theorem transfer_loop (a : List T) (s c : Nat) :
    ∀ (n i : Nat) (d : List T), i + n ≤ a.length → i + n ≤ d.length →
      ∃ d', for_loop (transfer_body (some a)) n i { size_ := s, capacity_ := c, buf_ := some d }
              = .ok { size_ := s, capacity_ := c, buf_ := some d' } ∧
            d'.length = d.length ∧
            ∀ j, d'[j]? = if i ≤ j ∧ j < i + n then a[j]? else d[j]? := by
  intro n
  induction n with
  | zero =>
    intro i d _ _
    refine ⟨d, rfl, rfl, ?_⟩
    intro j
    have : ¬ (i ≤ j ∧ j < i + 0) := by omega
    rw [if_neg this]
  | succ n ih =>
    intro i d ha hd
    have hia : i < a.length := by omega
    have hid : i < d.length := by omega
    obtain ⟨d', h1, h2, h3⟩ := ih (i + 1) (d.set i a[i]) (by omega) (by simp; omega)
    refine ⟨d', ?_, ?_, ?_⟩
    · simp only [for_loop, transfer_body, load_some a i hia, store_some d i _ hid]
      exact h1
    · simpa using h2
    · intro j
      rw [h3 j, List.getElem?_set]
      by_cases hj : i = j
      · subst hj
        simp [hid, List.getElem?_eq_getElem hia]
      · by_cases h4 : i + 1 ≤ j ∧ j < i + 1 + n
        · have : i ≤ j ∧ j < i + (n + 1) := by omega
          simp [h4, this]
        · have : ¬ (i ≤ j ∧ j < i + (n + 1)) := by omega
          simp [h4, this, hj]

/-- Copying the first `s` slots of `a` into a fresh array of `c ≥ s` slots. -/
theorem transfer_fresh [Inhabited T] (a : List T) (s c : Nat) (ha : s ≤ a.length) (hc : s ≤ c) :
    ∃ d', for_loop (transfer_body (some a)) s 0
            ({ size_ := 0, capacity_ := c, buf_ := new_array c } : vector_buf T)
            = .ok { size_ := 0, capacity_ := c, buf_ := some d' } ∧
          d'.length = c ∧ d'.take s = a.take s := by
  obtain ⟨d', h1, h2, h3⟩ :=
    transfer_loop a 0 c s 0 (List.replicate c default) (by omega) (by simp; omega)
  refine ⟨d', h1, by simpa using h2, ?_⟩
  apply List.ext_getElem?
  intro j
  rw [List.getElem?_take, List.getElem?_take, h3 j]
  by_cases hj : j < s
  · have : 0 ≤ j ∧ j < 0 + s := by omega
    simp [hj, this]
  · simp [hj]

theorem reserve_ok [Inhabited T] (this : vector_buf T) (n : Nat) (hinv : this.inv)
    (h : this.size_ ≤ n) :
    ∃ this', this.reserve n = (this', .ok ()) ∧ this'.inv ∧ this'.size_ = this.size_ ∧
      this'.capacity_ = max this.capacity_ n ∧ this'.contents = this.contents ∧
      (n ≤ this.capacity_ → this' = this) := by
  obtain ⟨s, c, b⟩ := this
  simp only [vector_buf.inv] at hinv
  obtain ⟨hsc, hb⟩ := hinv
  simp only at h hsc hb
  by_cases hle : n ≤ c
  · refine ⟨⟨s, c, b⟩, ?_, ⟨hsc, hb⟩, rfl, ?_, rfl, fun _ => rfl⟩
    · apply reserve_le
      · simp only; omega
      · simp only; omega
      · simp only; omega
    · simp only; omega
  · have hn0 : n ≠ 0 := by omega
    have hmax : max c n = n := by omega
    cases b with
    | none =>
      simp only at hb
      subst hb
      have hs0 : s = 0 := by omega
      subst hs0
      refine ⟨_, reserve_first _ n (by simp) hn0 rfl, ?_, rfl, by simp only; omega, ?_, ?_⟩
      · simp [vector_buf.inv, new_array, hn0]
      · simp [vector_buf.contents, new_array]
      · intro h'; simp only at h'; omega
    | some a =>
      simp only at hb
      obtain ⟨hc0, hlen⟩ := hb
      rw [reserve_grow _ n (by simp only; omega) hc0 (by simp only; omega)]
      by_cases hs : s = 0
      · subst hs
        refine ⟨⟨0, n, new_array n⟩, ?_, ?_, rfl, by simp only; omega, ?_, ?_⟩
        · simp [pure, Except.pure, vector_buf.swap]
        · simp [vector_buf.inv, new_array, hn0]
        · simp [vector_buf.contents, new_array]
        · intro h'; simp only at h'; omega
      · obtain ⟨d', h1, h2, h3⟩ := transfer_fresh a s n (by omega) (by omega)
        refine ⟨⟨s, n, some d'⟩, ?_, ?_, rfl, by simp only; omega, ?_, ?_⟩
        · simp [hs, h1, bind, Except.bind, pure, Except.pure, vector_buf.swap]
        · simp only [vector_buf.inv]
          exact ⟨by omega, hn0, h2⟩
        · simpa [vector_buf.contents] using h3
        · intro h'; simp only at h'; omega

theorem inv_some {s c : Nat} {a : List T} (h : vector_buf.inv ⟨s, c, some a⟩) :
    s ≤ c ∧ c ≠ 0 ∧ a.length = c := by
  simpa [vector_buf.inv] using h

theorem inv_none {s c : Nat} (h : vector_buf.inv (⟨s, c, none⟩ : vector_buf T)) :
    s = 0 ∧ c = 0 := by
  simp only [vector_buf.inv] at h
  omega

theorem inv_buf {this : vector_buf T} (h : this.inv) (hc : this.capacity_ ≠ 0) :
    ∃ a, this.buf_ = some a ∧ a.length = this.capacity_ := by
  obtain ⟨s, c, b⟩ := this
  cases b with
  | none => exact absurd (inv_none h).2 hc
  | some a => exact ⟨a, rfl, (inv_some h).2.2⟩

theorem take_set_succ (a : List T) (s : Nat) (x : T) (h : s < a.length) :
    (a.set s x).take (s + 1) = a.take s ++ [x] := by
  apply List.ext_getElem?
  intro j
  rw [List.getElem?_take, List.getElem?_set, List.getElem?_append, List.getElem?_take]
  have hl : (a.take s).length = s := by simp; omega
  rw [hl]
  by_cases h1 : j < s
  · have h2 : j < s + 1 := by omega
    have h3 : s ≠ j := by omega
    simp [h1, h2, h3]
  · by_cases h2 : j = s
    · subst h2
      simp [h]
    · have h3 : ¬ j < s + 1 := by omega
      have h4 : j - s ≠ 0 := by omega
      have h5 : 1 ≤ j - s := by omega
      simp [h1, h3, h5]

theorem ctor_copy_ok [Inhabited T] (rhs : vector_buf T) (hinv : rhs.inv) :
    ∃ v, vector_buf.ctor_copy rhs = (rhs, .ok v) ∧ v.inv ∧ v.size_ = rhs.size_ ∧
      v.capacity_ = rhs.capacity_ ∧ v.contents = rhs.contents := by
  obtain ⟨s, c, b⟩ := rhs
  cases b with
  | none =>
    obtain ⟨hs, hc⟩ := inv_none hinv
    subst hs hc
    refine ⟨vector_buf.ctor_default, ?_, ?_, rfl, rfl, rfl⟩
    · simp [vector_buf.ctor_copy, vector_buf.swap, vector_buf.ctor_default, bind, Except.bind,
        pure, Except.pure]
    · simp [vector_buf.inv, vector_buf.ctor_default]
  | some a =>
    obtain ⟨hsc, hc0, hlen⟩ := inv_some hinv
    by_cases hs : s = 0
    · subst hs
      refine ⟨⟨0, c, new_array c⟩, ?_, ?_, rfl, rfl, ?_⟩
      · simp [vector_buf.ctor_copy, reserve_default c hc0, hc0, vector_buf.swap, bind,
          Except.bind, pure, Except.pure]
      · simp [vector_buf.inv, new_array, hc0]
      · simp [vector_buf.contents, new_array]
    · obtain ⟨d', h1, h2, h3⟩ := transfer_fresh a s c (by omega) hsc
      refine ⟨⟨s, c, some d'⟩, ?_, ?_, rfl, rfl, ?_⟩
      · simp [vector_buf.ctor_copy, reserve_default c hc0, hc0, hs, h1, vector_buf.swap, bind,
          Except.bind, pure, Except.pure]
      · simp only [vector_buf.inv]
        exact ⟨hsc, hc0, h2⟩
      · simpa [vector_buf.contents] using h3

theorem operator_index_ok (this : vector T) (index : Nat) (hinv : this.inv)
    (h : index < this.size_) :
    ∃ x, vector.operator_index this index = (this, .ok x) ∧ this.contents[index]? = some x := by
  obtain ⟨s, c, b⟩ := this
  simp only at h
  cases b with
  | none => exact absurd (inv_none hinv).1 (by omega)
  | some a =>
    obtain ⟨hsc, hc0, hlen⟩ := inv_some hinv
    have hi : index < a.length := by omega
    refine ⟨a[index], ?_, ?_⟩
    · simp [vector.operator_index, h, load_some a index hi]
    · simp [vector_buf.contents, List.getElem?_take, h, List.getElem?_eq_getElem hi]

theorem push_back_ok [Inhabited T] (this : vector T) (x : T) (hinv : this.inv) :
    ∃ v, vector.push_back this x = (v, .ok ()) ∧ v.inv ∧ v.size_ = this.size_ + 1 ∧
      v.contents = this.contents ++ [x] ∧
      v.capacity_ = (if this.capacity_ = 0 then 1
                     else if this.size_ = this.capacity_ then 2 * this.size_
                     else this.capacity_) := by
  have key : ∃ v1 : vector T,
      (if this.size_ = 0 then vector.reserve this 1
       else if this.size_ = this.capacity_ then vector.reserve this (2 * this.size_)
       else (this, .ok ())) = (v1, .ok ()) ∧ v1.inv ∧ v1.size_ = this.size_ ∧
      v1.contents = this.contents ∧ v1.size_ < v1.capacity_ ∧
      v1.capacity_ = (if this.capacity_ = 0 then 1
                     else if this.size_ = this.capacity_ then 2 * this.size_
                     else this.capacity_) := by
    have hsc : this.size_ ≤ this.capacity_ := hinv.1
    by_cases h0 : this.size_ = 0
    · obtain ⟨v1, e1, i1, s1, c1, k1, _⟩ := reserve_ok this 1 hinv (by omega)
      refine ⟨v1, by rw [if_pos h0]; exact e1, i1, s1, k1, by omega, ?_⟩
      rw [c1]
      by_cases hc : this.capacity_ = 0
      · simp [hc]
      · have : this.size_ ≠ this.capacity_ := by omega
        simp only [hc, this, if_false]
        omega
    · by_cases h1 : this.size_ = this.capacity_
      · obtain ⟨v1, e1, i1, s1, c1, k1, _⟩ := reserve_ok this (2 * this.size_) hinv (by omega)
        refine ⟨v1, by rw [if_neg h0, if_pos h1]; exact e1, i1, s1, k1, by omega, ?_⟩
        rw [c1]
        have hc : this.capacity_ ≠ 0 := by omega
        simp only [hc, h1, if_false, if_true]
        omega
      · refine ⟨this, by rw [if_neg h0, if_neg h1], hinv, rfl, rfl, by omega, ?_⟩
        have hc : this.capacity_ ≠ 0 := by omega
        simp [hc, h1]
  obtain ⟨v1, e1, i1, s1, k1, l1, c1⟩ := key
  obtain ⟨s, c, b⟩ := v1
  simp only at s1 l1 c1
  cases b with
  | none => exact absurd (inv_none i1).2 (by omega)
  | some a =>
    obtain ⟨hsc, hc0, hlen⟩ := inv_some i1
    have hs : s < a.length := by omega
    refine ⟨⟨s + 1, c, some (a.set s x)⟩, ?_, ?_, by simp only; omega, ?_, c1⟩
    · simp only [vector.push_back, e1, store_some a s x hs]
    · simp only [vector_buf.inv]
      exact ⟨by omega, hc0, by simpa using hlen⟩
    · rw [← k1]
      simp only [vector_buf.contents]
      exact take_set_succ a s x hs

theorem erase_find_ok [BEq T] (a : List T) (x : T) :
    ∀ (n i : Nat), i + n ≤ a.length →
      ∃ k, erase_find (some a) x n i = .ok k ∧ i ≤ k ∧ k ≤ i + n ∧
        (∀ j, i ≤ j → j < k → ∃ y, a[j]? = some y ∧ (y == x) = false) ∧
        (k < i + n → ∃ y, a[k]? = some y ∧ (y == x) = true) := by
  intro n
  induction n with
  | zero =>
    intro i _
    exact ⟨i, rfl, Nat.le_refl _, Nat.le_refl _, fun j h1 h2 => by omega, fun h => by omega⟩
  | succ n ih =>
    intro i hi
    have hia : i < a.length := by omega
    by_cases hx : (a[i] == x) = true
    · refine ⟨i, ?_, Nat.le_refl _, by omega, fun j h1 h2 => by omega, fun _ => ?_⟩
      · simp [erase_find, load_some a i hia, hx, bind, Except.bind, pure, Except.pure]
      · exact ⟨a[i], List.getElem?_eq_getElem hia, hx⟩
    · obtain ⟨k, h1, h2, h3, h4, h5⟩ := ih (i + 1) (by omega)
      refine ⟨k, ?_, by omega, by omega, ?_, fun h => h5 (by omega)⟩
      · simp only [erase_find, load_some a i hia, bind, Except.bind, hx]
        exact h1
      · intro j hj1 hj2
        by_cases hji : j = i
        · subst hji
          exact ⟨a[j], List.getElem?_eq_getElem hia, by simpa using hx⟩
        · exact h4 j (by omega) hj2

theorem erase_shift_loop (s c : Nat) :
    ∀ (m i : Nat) (a : List T), i + m < a.length →
      ∃ a', for_loop erase_shift_body m i ⟨s, c, some a⟩ = .ok ⟨s, c, some a'⟩ ∧
        a'.length = a.length ∧
        ∀ j, a'[j]? = if i ≤ j ∧ j < i + m then a[j + 1]?
                      else if j = i + m then a[i]? else a[j]? := by
  intro m
  induction m with
  | zero =>
    intro i a _
    refine ⟨a, rfl, rfl, ?_⟩
    intro j
    have h1 : ¬ (i ≤ j ∧ j < i + 0) := by omega
    rw [if_neg h1]
    by_cases h2 : j = i + 0
    · rw [if_pos h2, h2]; rfl
    · rw [if_neg h2]
  | succ m ih =>
    intro i a hi
    have h0 : i < a.length := by omega
    have h1 : i + 1 < a.length := by omega
    obtain ⟨a', e1, e2, e3⟩ :=
      ih (i + 1) ((a.set i a[i + 1]).set (i + 1) a[i]) (by simp; omega)
    refine ⟨a', ?_, by simpa using e2, ?_⟩
    · simp only [for_loop, erase_shift_body, load_some a i h0, load_some a (i + 1) h1,
        store_some a i _ h0, bind, Except.bind, pure, Except.pure]
      rw [store_some _ (i + 1) _ (by simp; omega)]
      exact e1
    · intro j
      rw [e3 j]
      simp only [List.getElem?_set, List.length_set]
      by_cases c1 : j < i
      · have n1 : ¬ (i + 1 ≤ j ∧ j < i + 1 + m) := by omega
        have n2 : ¬ j = i + 1 + m := by omega
        have n3 : ¬ i + 1 = j := by omega
        have n4 : ¬ i = j := by omega
        have n5 : ¬ (i ≤ j ∧ j < i + (m + 1)) := by omega
        have n6 : ¬ j = i + (m + 1) := by omega
        simp only [n1, n2, n3, n4, n5, n6, if_false]
      · by_cases c2 : j = i
        · subst c2
          have n1 : ¬ (j + 1 ≤ j ∧ j < j + 1 + m) := by omega
          have n2 : ¬ j = j + 1 + m := by omega
          have n3 : ¬ j + 1 = j := by omega
          have n5 : j ≤ j ∧ j < j + (m + 1) := by omega
          simp only [n1, n2, n3, n5, h0, if_false, if_true, and_self]
          exact (List.getElem?_eq_getElem h1).symm
        · by_cases c3 : j < i + 1 + m
          · have n1 : i + 1 ≤ j ∧ j < i + 1 + m := by omega
            have n3 : ¬ i + 1 = j + 1 := by omega
            have n4 : ¬ i = j + 1 := by omega
            have n5 : i ≤ j ∧ j < i + (m + 1) := by omega
            simp only [n1, n3, n4, n5, if_false, if_true, and_self]
          · by_cases c4 : j = i + 1 + m
            · subst c4
              have n1 : ¬ (i + 1 ≤ i + 1 + m ∧ i + 1 + m < i + 1 + m) := by omega
              have n5 : ¬ (i ≤ i + 1 + m ∧ i + 1 + m < i + (m + 1)) := by omega
              have n6 : i + 1 + m = i + (m + 1) := by omega
              rw [if_neg n1, if_neg n5, if_pos rfl, if_pos n6]
              simp only [if_true, h1]
              exact (List.getElem?_eq_getElem h0).symm
            · have n1 : ¬ (i + 1 ≤ j ∧ j < i + 1 + m) := by omega
              have n3 : ¬ i + 1 = j := by omega
              have n4 : ¬ i = j := by omega
              have n5 : ¬ (i ≤ j ∧ j < i + (m + 1)) := by omega
              have n6 : ¬ j = i + (m + 1) := by omega
              simp only [n1, c4, n3, n4, n5, n6, if_false]

theorem erase_eq_eraseIdx_first [BEq T] (x : T) :
    ∀ (L : List T) (k : Nat),
      (∀ j, j < k → ∃ y, L[j]? = some y ∧ (y == x) = false) →
      (∃ y, L[k]? = some y ∧ (y == x) = true) → L.erase x = L.eraseIdx k := by
  intro L
  induction L with
  | nil =>
    intro k _ h
    obtain ⟨y, hy, _⟩ := h
    simp at hy
  | cons z L ih =>
    intro k h1 h2
    cases k with
    | zero =>
      obtain ⟨y, hy, hyx⟩ := h2
      simp only [List.getElem?_cons_zero, Option.some.injEq] at hy
      subst hy
      simp [List.erase_cons, hyx]
    | succ k =>
      obtain ⟨y, hy, hyx⟩ := h1 0 (by omega)
      simp only [List.getElem?_cons_zero, Option.some.injEq] at hy
      subst hy
      rw [List.erase_cons, List.eraseIdx_cons_succ]
      simp only [hyx, Bool.false_eq_true, if_false]
      congr 1
      apply ih k
      · intro j hj
        simpa using h1 (j + 1) (by omega)
      · simpa using h2

theorem erase_eq_self_of_absent [BEq T] (x : T) :
    ∀ (L : List T), (∀ y, y ∈ L → (y == x) = false) → L.erase x = L := by
  intro L
  induction L with
  | nil => intro _; rfl
  | cons z L ih =>
    intro h
    rw [List.erase_cons]
    simp only [h z (List.mem_cons_self z L), Bool.false_eq_true, if_false]
    congr 1
    exact ih (fun y hy => h y (List.mem_cons_of_mem z hy))

theorem contents_length {this : vector_buf T} (h : this.inv) :
    this.contents.length = this.size_ := by
  obtain ⟨s, c, b⟩ := this
  cases b with
  | none => simp [vector_buf.contents, (inv_none h).1]
  | some a =>
    obtain ⟨h1, _, h3⟩ := inv_some h
    simp [vector_buf.contents]
    omega

/-- What `erase` does on a well-formed buffer, in terms of the index `k` at
which the search loop stops. -/
theorem erase_ok [BEq T] (this : vector_buf T) (x : T) (hinv : this.inv) :
    ∃ k, k ≤ this.size_ ∧
      (∀ j, j < k → ∃ y, this.contents[j]? = some y ∧ (y == x) = false) ∧
      (k = this.size_ → this.erase x = (this, .ok ())) ∧
      (k < this.size_ →
        (∃ y, this.contents[k]? = some y ∧ (y == x) = true) ∧
        ∃ v, this.erase x = (v, .ok ()) ∧ v.inv ∧ v.size_ = this.size_ - 1 ∧
          v.capacity_ = this.capacity_ ∧ v.contents = this.contents.eraseIdx k) := by
  obtain ⟨s, c, b⟩ := this
  cases b with
  | none =>
    obtain ⟨hs, hc⟩ := inv_none hinv
    subst hs hc
    refine ⟨0, Nat.le_refl _, fun j hj => by omega, fun _ => ?_, fun h => by simp at h⟩
    simp [vector_buf.erase, erase_find]
  | some a =>
    obtain ⟨hsc, hc0, hlen⟩ := inv_some hinv
    obtain ⟨k, f1, _, f3, f4, f5⟩ := erase_find_ok a x s 0 (by omega)
    have f3' : k ≤ s := by omega
    refine ⟨k, f3', ?_, ?_, ?_⟩
    · intro j hj
      obtain ⟨y, hy1, hy2⟩ := f4 j (by omega) hj
      refine ⟨y, ?_, hy2⟩
      have : j < s := by omega
      simp [vector_buf.contents, List.getElem?_take, this, hy1]
    · intro hk
      simp only at hk
      subst hk
      simp [vector_buf.erase, f1]
    · intro hk
      simp only at hk
      obtain ⟨y, hy1, hy2⟩ := f5 (by omega)
      refine ⟨⟨y, by simp [vector_buf.contents, List.getElem?_take, hk, hy1], hy2⟩, ?_⟩
      obtain ⟨a', g1, g2, g3⟩ := erase_shift_loop s c (s - 1 - k) k a (by omega)
      have hks : k ≠ s := by omega
      refine ⟨⟨s - 1, c, some a'⟩, ?_, ?_, rfl, rfl, ?_⟩
      · by_cases hlast : k = s - 1
        · have hm : s - 1 - k = 0 := by omega
          rw [hm] at g1
          simp only [for_loop, Except.ok.injEq, vector_buf.mk.injEq, true_and,
            Option.some.injEq] at g1
          subst g1
          simp only [vector_buf.erase, Nat.sub_zero, f1, ne_eq, hks, not_false_eq_true, if_true, hlast,
            not_true_eq_false, if_false, pure, Except.pure]
          rw [if_pos (by omega)]
        · simp [vector_buf.erase, f1, hks, hlast, g1]
      · simp only [vector_buf.inv]
        exact ⟨by omega, hc0, by omega⟩
      · simp only [vector_buf.contents]
        apply List.ext_getElem?
        intro j
        rw [List.getElem?_take, List.getElem?_eraseIdx, List.getElem?_take, List.getElem?_take,
          g3 j]
        by_cases c1 : j < s - 1
        · by_cases c2 : j < k
          · have n1 : ¬ (k ≤ j ∧ j < k + (s - 1 - k)) := by omega
            have n2 : ¬ j = k + (s - 1 - k) := by omega
            have n3 : j < s := by omega
            simp only [c1, c2, n1, n2, n3, if_true, if_false]
          · have n1 : k ≤ j ∧ j < k + (s - 1 - k) := by omega
            have n3 : j + 1 < s := by omega
            simp only [c1, c2, n1, n3, if_true, if_false, and_self]
        · have c2 : ¬ j < k := by omega
          have n3 : ¬ j + 1 < s := by omega
          simp only [c1, c2, n3, if_false]

theorem fill_loop (x : T) (s c : Nat) :
    ∀ (n i : Nat) (d : List T), i + n ≤ d.length →
      ∃ d', for_loop (fill_body x) n i { size_ := s, capacity_ := c, buf_ := some d }
              = .ok { size_ := s, capacity_ := c, buf_ := some d' } ∧
            d'.length = d.length ∧
            ∀ j, d'[j]? = if i ≤ j ∧ j < i + n then some x else d[j]? := by
  intro n
  induction n with
  | zero =>
    intro i d _
    refine ⟨d, rfl, rfl, ?_⟩
    intro j
    have : ¬ (i ≤ j ∧ j < i + 0) := by omega
    rw [if_neg this]
  | succ n ih =>
    intro i d hd
    have hid : i < d.length := by omega
    obtain ⟨d', h1, h2, h3⟩ := ih (i + 1) (d.set i x) (by simp; omega)
    refine ⟨d', ?_, by simpa using h2, ?_⟩
    · simp only [for_loop, fill_body, store_some d i _ hid, bind, Except.bind, pure, Except.pure]
      exact h1
    · intro j
      rw [h3 j, List.getElem?_set]
      by_cases hj : i = j
      · subst hj
        have n1 : ¬ (i + 1 ≤ i ∧ i < i + 1 + n) := by omega
        have n2 : i ≤ i ∧ i < i + (n + 1) := by omega
        simp only [n1, n2, hid, if_true, if_false, and_self]
      · by_cases h4 : i + 1 ≤ j ∧ j < i + 1 + n
        · have : i ≤ j ∧ j < i + (n + 1) := by omega
          simp only [h4, this, if_true, and_self]
        · have : ¬ (i ≤ j ∧ j < i + (n + 1)) := by omega
          simp only [h4, this, hj, if_false]

theorem ctor_fill_ok [Inhabited T] (n : Nat) (x : T) :
    ∃ v, vector_buf.ctor_fill n x = .ok v ∧ v.inv ∧ v.size_ = n ∧ v.capacity_ = n ∧
      v.contents = List.replicate n x := by
  by_cases hn : n = 0
  · subst hn
    refine ⟨vector_buf.ctor_default, ?_, ?_, rfl, rfl, rfl⟩
    · simp only [vector_buf.ctor_fill, reserve_default_zero, for_loop, vector_buf.swap,
        bind, Except.bind, pure, Except.pure]
      rfl
    · simp [vector_buf.inv, vector_buf.ctor_default]
  · obtain ⟨d', h1, h2, h3⟩ := fill_loop x 0 n n 0 (List.replicate n (default : T)) (by simp)
    refine ⟨⟨n, n, some d'⟩, ?_, ?_, rfl, rfl, ?_⟩
    · simp only [vector_buf.ctor_fill, reserve_default n hn, new_array, Nat.sub_zero, h1, bind,
        Except.bind, pure, Except.pure, vector_buf.swap]
    · simp only [vector_buf.inv]
      exact ⟨Nat.le_refl _, hn, by simpa using h2⟩
    · simp only [vector_buf.contents]
      apply List.ext_getElem?
      intro j
      rw [List.getElem?_take, h3 j]
      by_cases hj : j < n
      · have : 0 ≤ j ∧ j < 0 + n := by omega
        simp [hj]
      · simp [hj]
        omega

theorem push_back_all_ok [Inhabited T] :
    ∀ (vs : List T) (this : vector T), this.inv →
      ∃ v, vector.push_back_all this vs = (v, .ok ()) ∧ v.inv ∧
        v.size_ = this.size_ + vs.length ∧ v.contents = this.contents ++ vs := by
  intro vs
  induction vs with
  | nil =>
    intro this hinv
    exact ⟨this, rfl, hinv, rfl, by simp⟩
  | cons x xs ih =>
    intro this hinv
    obtain ⟨v1, e1, i1, s1, k1, _⟩ := push_back_ok this x hinv
    obtain ⟨v, e, i, s, k⟩ := ih v1 i1
    refine ⟨v, ?_, i, ?_, ?_⟩
    · simp only [vector.push_back_all, e1]
      exact e
    · rw [s, s1, List.length_cons]; omega
    · rw [k, k1]; simp

/-- The growth state of a buffer filled by `push_back` alone: empty and
unallocated, or more than half full with a power of two as capacity. -/
theorem push_back_growth [Inhabited T] (this : vector T) (x : T) (hinv : this.inv)
    (hg : this.size_ = 0 ∧ this.capacity_ = 0 ∨
      ∃ k, this.capacity_ = 2 ^ k ∧ this.size_ ≤ 2 ^ k ∧ 2 ^ k < 2 * this.size_) :
    (∃ k, (vector.push_back this x).1.capacity_ = 2 ^ k ∧
        (vector.push_back this x).1.size_ ≤ 2 ^ k ∧
        2 ^ k < 2 * (vector.push_back this x).1.size_) ∧
      vector.push_back_relocations this + (this.capacity_ - 1) =
        (vector.push_back this x).1.capacity_ - 1 := by
  obtain ⟨v, e, _, hs, _, hc⟩ := push_back_ok this x hinv
  rw [e]
  simp only
  rw [hs, hc]
  rcases hg with ⟨h1, h2⟩ | ⟨k, h1, h2, h3⟩
  · refine ⟨⟨0, by simp [h2], by simp [h1], by simp [h1]⟩, ?_⟩
    simp [vector.push_back_relocations, vector_buf.reserve_relocations, h1, h2]
  · have hpos : 0 < 2 ^ k := Nat.two_pow_pos k
    have hc0 : this.capacity_ ≠ 0 := by omega
    have hs0 : this.size_ ≠ 0 := by omega
    by_cases hfull : this.size_ = this.capacity_
    · refine ⟨⟨k + 1, ?_, ?_, ?_⟩, ?_⟩
      · rw [if_neg hc0, if_pos hfull, hfull, h1, Nat.pow_succ]; omega
      · rw [Nat.pow_succ]; omega
      · rw [Nat.pow_succ]; omega
      · rw [if_neg hc0, if_pos hfull]
        have n1 : ¬ 2 * this.size_ < this.size_ := by omega
        have n2 : ¬ (2 * this.size_ ≠ 0 ∧ this.capacity_ = 0) := by omega
        have n3 : this.capacity_ < 2 * this.size_ := by omega
        have hr : vector.push_back_relocations this = this.size_ := by
          unfold vector.push_back_relocations vector_buf.reserve_relocations
          rw [if_neg hs0, if_pos hfull, if_neg n1, if_neg n2, if_pos n3, if_pos hs0]
          rfl
        rw [hr]
        omega
    · refine ⟨⟨k, ?_, ?_, ?_⟩, ?_⟩
      · rw [if_neg hc0, if_neg hfull, h1]
      · omega
      · omega
      · rw [if_neg hc0, if_neg hfull]
        have hr : vector.push_back_relocations this = 0 := by
          unfold vector.push_back_relocations
          rw [if_neg hs0, if_neg hfull]
        rw [hr]
        omega

theorem push_back_all_growth [Inhabited T] :
    ∀ (vs : List T) (this : vector T), this.inv → vs ≠ [] →
      (this.size_ = 0 ∧ this.capacity_ = 0 ∨
        ∃ k, this.capacity_ = 2 ^ k ∧ this.size_ ≤ 2 ^ k ∧ 2 ^ k < 2 * this.size_) →
      (∃ k, (vector.push_back_all this vs).1.capacity_ = 2 ^ k ∧
          (vector.push_back_all this vs).1.size_ ≤ 2 ^ k ∧
          2 ^ k < 2 * (vector.push_back_all this vs).1.size_) ∧
        vector.push_back_all_relocations this vs + (this.capacity_ - 1) =
          (vector.push_back_all this vs).1.capacity_ - 1 := by
  intro vs
  induction vs with
  | nil => intro _ _ h; exact absurd rfl h
  | cons x xs ih =>
    intro this hinv _ hg
    obtain ⟨v1, e1, i1, _⟩ := push_back_ok this x hinv
    obtain ⟨g1, r1⟩ := push_back_growth this x hinv hg
    rw [e1] at g1 r1
    simp only at g1 r1
    simp only [vector.push_back_all, vector.push_back_all_relocations, e1]
    by_cases hxs : xs = []
    · subst hxs
      simp only [vector.push_back_all, vector.push_back_all_relocations]
      exact ⟨g1, by omega⟩
    · obtain ⟨g2, r2⟩ := ih v1 i1 hxs (Or.inr g1)
      exact ⟨g2, by omega⟩

theorem inv_default : (vector_buf.ctor_default : vector_buf T).inv := by
  simp [vector_buf.inv, vector_buf.ctor_default]

theorem clear_inv {this : vector_buf T} (h : this.inv) : (vector_buf.clear this).inv := by
  obtain ⟨s, c, b⟩ := this
  cases b with
  | none => simpa [vector_buf.clear, vector_buf.inv] using (inv_none h).2
  | some a =>
    obtain ⟨_, h2, h3⟩ := inv_some h
    simp [vector_buf.clear, vector_buf.inv, h2, h3]

theorem reserve_inv [Inhabited T] {this : vector_buf T} (n : Nat) (h : this.inv) :
    (this.reserve n).1.inv := by
  by_cases hn : n < this.size_
  · rw [reserve_lt this n hn]; exact h
  · obtain ⟨v, e, i, _⟩ := reserve_ok this n h (by omega)
    rw [e]; exact i

theorem erase_inv [BEq T] {this : vector_buf T} (x : T) (h : this.inv) :
    (this.erase x).1.inv := by
  obtain ⟨k, hk, _, h1, h2⟩ := erase_ok this x h
  by_cases hks : k = this.size_
  · rw [h1 hks]; exact h
  · obtain ⟨_, v, e, i, _⟩ := h2 (by omega)
    rw [e]; exact i

theorem operator_index_fst (this : vector T) (index : Nat) :
    (vector.operator_index this index).1 = this := by
  unfold vector.operator_index
  split <;> rfl

theorem operator_assign_ok [Inhabited T] (this rhs : vector T) (hinv : rhs.inv) :
    ∃ v, vector.operator_assign this rhs = (v, rhs, .ok ()) ∧ v.inv ∧ v.size_ = rhs.size_ ∧
      v.capacity_ = rhs.capacity_ ∧ v.contents = rhs.contents := by
  obtain ⟨v, e, i, s, c, k⟩ := ctor_copy_ok rhs hinv
  refine ⟨v, ?_, i, s, c, k⟩
  simp [vector.operator_assign, vector.ctor_copy, e, vector_buf.swap]

theorem operator_assign_move_ok [Inhabited T] (this rhs : vector T) (hinv : rhs.inv) :
    ∃ v, vector.operator_assign_move this rhs = (v, rhs, .ok ()) ∧ v.inv ∧
      v.size_ = rhs.size_ ∧ v.capacity_ = rhs.capacity_ ∧ v.contents = rhs.contents := by
  obtain ⟨v, e, i, s, c, k⟩ := ctor_copy_ok rhs hinv
  refine ⟨v, ?_, i, s, c, k⟩
  simp [vector.operator_assign_move, vector.ctor_copy, e, vector_buf.swap]

theorem operator_assign_self_ok [Inhabited T] (this : vector T) (hinv : this.inv) :
    ∃ v, vector.operator_assign_self this = (v, .ok ()) ∧ v.inv ∧ v.size_ = this.size_ ∧
      v.capacity_ = this.capacity_ ∧ v.contents = this.contents := by
  obtain ⟨v, e, i, s, c, k⟩ := ctor_copy_ok this hinv
  refine ⟨v, ?_, i, s, c, k⟩
  simp [vector.operator_assign_self, vector.ctor_copy, e, vector_buf.swap]

theorem reachable_inv [Inhabited T] [BEq T] (v : vector T) (h : vector.reachable v) :
    vector_buf.inv v := by
  induction h with
  | ctor_default => exact inv_default
  | ctor_fill size element v e =>
    obtain ⟨w, e1, i1, _⟩ := ctor_fill_ok size element
    have : w = v := by
      have := e1.symm.trans e
      simpa using this
    rw [← this]; exact i1
  | ctor_copy rhs v _ e ih =>
    obtain ⟨w, e1, i1, _⟩ := ctor_copy_ok rhs ih
    have : w = v := by
      have h2 : (vector.ctor_copy rhs).2 = .ok w := by simp [vector.ctor_copy, e1]
      simpa using h2.symm.trans e
    rw [← this]; exact i1
  | ctor_copy_arg rhs _ ih =>
    obtain ⟨w, e1, _⟩ := ctor_copy_ok rhs ih
    simpa [vector.ctor_copy, e1] using ih
  | ctor_move rhs v _ e ih =>
    obtain ⟨w, e1, i1, _⟩ := ctor_copy_ok rhs ih
    have : w = v := by
      have h2 : (vector.ctor_move rhs).2 = .ok w := by simp [vector.ctor_move, e1]
      simpa using h2.symm.trans e
    rw [← this]; exact i1
  | ctor_move_arg rhs _ ih =>
    obtain ⟨w, e1, _⟩ := ctor_copy_ok rhs ih
    simpa [vector.ctor_move, e1] using ih
  | operator_assign this rhs _ _ _ ih2 =>
    obtain ⟨w, e1, i1, _⟩ := operator_assign_ok this rhs ih2
    rw [e1]; exact i1
  | operator_assign_arg this rhs _ _ _ ih2 =>
    obtain ⟨w, e1, i1, _⟩ := operator_assign_ok this rhs ih2
    rw [e1]; exact ih2
  | operator_assign_self this _ ih =>
    obtain ⟨w, e1, i1, _⟩ := operator_assign_self_ok this ih
    rw [e1]; exact i1
  | operator_assign_move this rhs _ _ _ ih2 =>
    obtain ⟨w, e1, i1, _⟩ := operator_assign_move_ok this rhs ih2
    rw [e1]; exact i1
  | operator_assign_move_arg this rhs _ _ _ ih2 =>
    obtain ⟨w, e1, i1, _⟩ := operator_assign_move_ok this rhs ih2
    rw [e1]; exact ih2
  | operator_index this index _ ih => rw [operator_index_fst]; exact ih
  | push_back this element _ ih =>
    obtain ⟨w, e1, i1, _⟩ := push_back_ok this element ih
    rw [e1]; exact i1
  | reserve this n _ ih => exact reserve_inv n ih
  | erase this element _ ih => exact erase_inv element ih
  | clear this _ ih => exact clear_inv ih

end se_detail

/-! ## The documented behaviour -/

/-- C1 (push-then-read).  Starting from `vector()`, the calls `push_back(v1)`,
..., `push_back(vn)` all return; the resulting vector has `size() == n`, and
for every `i < n` the call `operator[](i)` returns `v_{i+1}`. -/
theorem push_then_read {T : Type} [Inhabited T] (vs : List T) :
    ∃ v, vector.push_back_all vector.ctor_default vs = (v, .ok ()) ∧
      vector.size v = vs.length ∧
      ∀ (i : Nat) (h : i < vs.length), vector.operator_index v i = (v, .ok vs[i]) := by
  obtain ⟨v, e, hi, hs, hk⟩ := push_back_all_ok vs vector.ctor_default inv_default
  have hs' : v.size_ = vs.length := by
    rw [hs]; simp [vector.ctor_default, vector_buf.ctor_default]
  have hk' : vector_buf.contents v = vs := by
    rw [hk]; simp [vector.ctor_default, vector_buf.ctor_default, vector_buf.contents]
  refine ⟨v, e, hs', ?_⟩
  intro i h
  obtain ⟨x, e1, e2⟩ := operator_index_ok v i hi (by omega)
  rw [hk', List.getElem?_eq_getElem h] at e2
  rw [e1]
  simp only [Option.some.injEq] at e2
  rw [e2]

/-- C2 (erase).  On a vector with logical contents `L`, `erase(v)` returns and
leaves the contents `L` without its first element equal to `v` (`List.erase`),
the other elements in their order, and the capacity as it was.  When `v` occurs
in `L`, at first index `k`, the contents are `L` without position `k` and the
size has gone down by one; when it does not occur, the vector is unchanged. -/
theorem erase_removes_first {T : Type} [BEq T] [LawfulBEq T] (this : vector T) (x : T)
    (hinv : vector_buf.inv this) :
    ∃ v, vector.erase this x = (v, .ok ()) ∧
      vector_buf.contents v = (vector_buf.contents this).erase x ∧
      vector.capacity v = vector.capacity this ∧
      (x ∈ vector_buf.contents this →
        vector.size v + 1 = vector.size this ∧
        ∃ k, (vector_buf.contents this)[k]? = some x ∧
          (∀ j, j < k → (vector_buf.contents this)[j]? ≠ some x) ∧
          vector_buf.contents v = (vector_buf.contents this).eraseIdx k) ∧
      (x ∉ vector_buf.contents this → v = this) := by
  obtain ⟨k, hk, h1, h2, h3⟩ := erase_ok this x hinv
  have hfirst : ∀ j, j < k → (vector_buf.contents this)[j]? ≠ some x := by
    intro j hj hc
    obtain ⟨y, hy1, hy2⟩ := h1 j hj
    rw [hc] at hy1
    simp only [Option.some.injEq] at hy1
    subst hy1
    simp at hy2
  by_cases hks : k = this.size_
  · have habs : x ∉ vector_buf.contents this := by
      intro hmem
      obtain ⟨j, hj, hjx⟩ := List.getElem_of_mem hmem
      rw [contents_length hinv] at hj
      exact hfirst j (by omega) (by rw [List.getElem?_eq_getElem, hjx])
    refine ⟨this, h2 hks, ?_, rfl, fun h => absurd h habs, fun _ => rfl⟩
    rw [List.erase_of_not_mem habs]
  · obtain ⟨⟨y, hy1, hy2⟩, v, e, _, hs, hc, hcont⟩ := h3 (by omega)
    have hyx : y = x := by simpa using hy2
    subst hyx
    have hmem : y ∈ vector_buf.contents this := List.getElem?_mem hy1
    refine ⟨v, e, ?_, hc, fun _ => ⟨?_, k, hy1, hfirst, hcont⟩, fun h => absurd hmem h⟩
    · rw [hcont]
      exact (erase_eq_eraseIdx_first y _ k h1 ⟨y, hy1, hy2⟩).symm
    · have hpos : 0 < this.size_ := Nat.lt_of_le_of_lt (Nat.zero_le k) (by omega)
      simp only [vector.size, vector_buf.size, hs]
      exact Nat.sub_add_cancel hpos

/-- Witness for C2: `[1,2,3,4].erase(2)` yields `[1,3,4]`. -/
theorem erase_removes_first_witness :
    ∃ v, vector.erase (⟨4, 4, some [1, 2, 3, 4]⟩ : vector Nat) 2 = (v, .ok ()) ∧
      vector_buf.contents v = [1, 3, 4] ∧ vector.size v = 3 ∧ vector.capacity v = 4 := by
  obtain ⟨v, e, hk, hc, hm, _⟩ :=
    erase_removes_first (⟨4, 4, some [1, 2, 3, 4]⟩ : vector Nat) 2 (by decide)
  refine ⟨v, e, by rw [hk]; decide, ?_, by rw [hc]; rfl⟩
  have := (hm (by decide)).1
  simp only [vector.size, vector_buf.size] at this ⊢
  omega

/-- C3 (erase of an absent value).  When no element at the indices `[0, size)`
equals `v`, `erase(v)` returns and leaves the object as it was: size, capacity
and every storage slot, those at `[size, capacity)` included. -/
theorem erase_absent {T : Type} [BEq T] (this : vector T) (x : T)
    (hinv : vector_buf.inv this)
    (habs : ∀ y, y ∈ vector_buf.contents this → (y == x) = false) :
    vector.erase this x = (this, .ok ()) := by
  obtain ⟨k, hk, _, h2, h3⟩ := erase_ok this x hinv
  by_cases hks : k = this.size_
  · exact h2 hks
  · obtain ⟨⟨y, hy1, hy2⟩, _⟩ := h3 (by omega)
    have := habs y (List.getElem?_mem hy1)
    rw [this] at hy2
    exact absurd hy2 (by decide)

/-- Witness for C3: `9` stands in the slot past the end only. -/
theorem erase_absent_witness :
    vector.erase (⟨3, 4, some [1, 2, 3, 9]⟩ : vector Nat) 9
      = (⟨3, 4, some [1, 2, 3, 9]⟩, .ok ()) :=
  erase_absent (⟨3, 4, some [1, 2, 3, 9]⟩ : vector Nat) 9 (by decide) (by decide)

/-- C4 (reserve rejection).  On a vector of size `s`, `reserve(k)` fails if and
only if `k < s`; the failure is the `std::runtime_error` of vector.h:93, the
specification's `InvalidArgument`, and the object is then exactly as it was
before the call (size, capacity and every slot). -/
theorem reserve_rejects {T : Type} [Inhabited T] (this : vector T) (k : Nat)
    (hinv : vector_buf.inv this) :
    ((∃ e, (vector.reserve this k).2 = .error e) ↔ k < vector.size this) ∧
      (k < vector.size this → vector.reserve this k = (this, .error InvalidArgument)) := by
  have hfail : k < vector.size this →
      vector.reserve this k = (this, .error InvalidArgument) := by
    intro h
    exact reserve_lt this k h
  refine ⟨⟨?_, fun h => ⟨InvalidArgument, by rw [hfail h]⟩⟩, hfail⟩
  rintro ⟨e, he⟩
  by_cases h : k < vector.size this
  · exact h
  · obtain ⟨v, e1, _⟩ := reserve_ok this k hinv (by
      simp only [vector.size, vector_buf.size] at h; omega)
    simp only [vector.reserve, e1] at he
    cases he

/-- Witness for C4: `reserve(2)` on a vector of size 3. -/
theorem reserve_rejects_witness :
    ((∃ e, (vector.reserve (⟨3, 4, some [1, 2, 3, 0]⟩ : vector Nat) 2).2 = .error e) ↔
        2 < vector.size (⟨3, 4, some [1, 2, 3, 0]⟩ : vector Nat)) ∧
      (2 < vector.size (⟨3, 4, some [1, 2, 3, 0]⟩ : vector Nat) →
        vector.reserve (⟨3, 4, some [1, 2, 3, 0]⟩ : vector Nat) 2
          = (⟨3, 4, some [1, 2, 3, 0]⟩, .error InvalidArgument)) :=
  reserve_rejects (⟨3, 4, some [1, 2, 3, 0]⟩ : vector Nat) 2 (by decide)

/-- C5 (reserve).  On a vector and for `c ≥ size`, `reserve(c)` returns;
afterwards `capacity()` is `max(old capacity, c)`, hence at least `c`, exactly
`c` when `c` exceeds the old capacity and the old capacity otherwise, while
`size()` and the elements at `[0, size)` are as before, in the same order. -/
theorem reserve_grows {T : Type} [Inhabited T] (this : vector T) (c : Nat)
    (hinv : vector_buf.inv this) (hc : vector.size this ≤ c) :
    ∃ v, vector.reserve this c = (v, .ok ()) ∧
      vector.capacity v = max (vector.capacity this) c ∧ c ≤ vector.capacity v ∧
      (vector.capacity this < c → vector.capacity v = c) ∧
      (c ≤ vector.capacity this → vector.capacity v = vector.capacity this) ∧
      vector.size v = vector.size this ∧
      vector_buf.contents v = vector_buf.contents this := by
  obtain ⟨v, e, _, hs, hcap, hk, _⟩ := reserve_ok this c hinv hc
  refine ⟨v, e, hcap, ?_, ?_, ?_, hs, hk⟩
  · simp only [vector.capacity, hcap]; omega
  · intro h; simp only [vector.capacity] at h ⊢; rw [hcap]; omega
  · intro h; simp only [vector.capacity] at h ⊢; rw [hcap]; omega

/-- Witness for C5: `reserve(5)` on a full vector of capacity 2. -/
theorem reserve_grows_witness :
    ∃ v, vector.reserve (⟨2, 2, some [7, 8]⟩ : vector Nat) 5 = (v, .ok ()) ∧
      vector.capacity v = 5 ∧ vector.size v = 2 ∧ vector_buf.contents v = [7, 8] := by
  obtain ⟨v, e, h1, _, _, _, h2, h3⟩ :=
    reserve_grows (⟨2, 2, some [7, 8]⟩ : vector Nat) 5 (by decide) (by decide)
  exact ⟨v, e, by rw [h1]; decide, by rw [h2]; decide, by rw [h3]; decide⟩

/-- C6 (indexed access).  `operator[](i)` fails if and only if `i >= size()`,
so `operator[](size())` always fails; the failure is the `std::runtime_error`
of vector.h:170, the specification's `OutOfRange`; when `i < size()` it returns
the element at position `i`; in either case the object is left as it was. -/
theorem operator_index_spec {T : Type} (this : vector T) (i : Nat)
    (hinv : vector_buf.inv this) :
    (vector.operator_index this i).1 = this ∧
      ((∃ e, (vector.operator_index this i).2 = .error e) ↔ vector.size this ≤ i) ∧
      (vector.size this ≤ i → (vector.operator_index this i).2 = .error OutOfRange) ∧
      (vector.operator_index this (vector.size this)).2 = .error OutOfRange ∧
      (i < vector.size this →
        ∃ x, (vector.operator_index this i).2 = .ok x ∧
          (vector_buf.contents this)[i]? = some x) := by
  have hfail : ∀ j, vector.size this ≤ j →
      (vector.operator_index this j).2 = .error OutOfRange := by
    intro j h
    simp only [vector.size, vector_buf.size] at h
    simp [vector.operator_index, h, OutOfRange]
  have hok : i < vector.size this →
      ∃ x, (vector.operator_index this i).2 = .ok x ∧
        (vector_buf.contents this)[i]? = some x := by
    intro h
    obtain ⟨x, e1, e2⟩ := operator_index_ok this i hinv h
    exact ⟨x, by rw [e1], e2⟩
  refine ⟨operator_index_fst this i, ⟨?_, fun h => ⟨OutOfRange, hfail i h⟩⟩, hfail i,
    hfail _ (Nat.le_refl _), hok⟩
  rintro ⟨e, he⟩
  by_cases h : i < vector.size this
  · obtain ⟨x, e1, _⟩ := hok h
    rw [e1] at he
    cases he
  · omega

/-- Witness for C6: index 1 and the vector `[7, 8]` with one spare slot. -/
theorem operator_index_spec_witness :
    (vector.operator_index (⟨2, 3, some [7, 8, 0]⟩ : vector Nat) 1).1 = ⟨2, 3, some [7, 8, 0]⟩ ∧
      (vector.operator_index (⟨2, 3, some [7, 8, 0]⟩ : vector Nat)
        (vector.size (⟨2, 3, some [7, 8, 0]⟩ : vector Nat))).2 = .error OutOfRange :=
  ⟨(operator_index_spec (⟨2, 3, some [7, 8, 0]⟩ : vector Nat) 1 (by decide)).1,
   (operator_index_spec (⟨2, 3, some [7, 8, 0]⟩ : vector Nat) 1 (by decide)).2.2.2.1⟩

/-- C7 (clear).  `clear()` is `noexcept` and total: afterwards `size() == 0`
and the contents are empty, while `capacity()` and the storage (the pointer and
every slot) are as before the call. -/
theorem clear_spec {T : Type} (this : vector T) :
    vector.size (vector.clear this) = 0 ∧
      vector_buf.contents (vector.clear this) = [] ∧
      vector.capacity (vector.clear this) = vector.capacity this ∧
      (vector.clear this).buf_ = this.buf_ := by
  refine ⟨rfl, ?_, rfl, rfl⟩
  obtain ⟨s, c, b⟩ := this
  cases b <;> simp [vector.clear, vector_buf.clear, vector_buf.contents]

/-- C8 (copy construction).  Copy-constructing `B` from a vector `A` completes;
`B.size() == A.size()`, `B.capacity() == A.capacity()` (the capacity of the
source, not its size), `B[i] == A[i]` for every `i < A.size()`, and `A` is as it
was before the copy. -/
theorem ctor_copy_spec {T : Type} [Inhabited T] (A : vector T) (hinv : vector_buf.inv A) :
    ∃ B, vector.ctor_copy A = (A, .ok B) ∧
      vector.size B = vector.size A ∧ vector.capacity B = vector.capacity A ∧
      vector_buf.contents B = vector_buf.contents A ∧
      ∀ i, i < vector.size A →
        ∃ x, vector.operator_index B i = (B, .ok x) ∧
          vector.operator_index A i = (A, .ok x) := by
  obtain ⟨B, e, hi, hs, hc, hk⟩ := ctor_copy_ok A hinv
  refine ⟨B, e, hs, hc, hk, ?_⟩
  intro i h
  obtain ⟨x, e1, e2⟩ := operator_index_ok A i hinv h
  obtain ⟨y, e3, e4⟩ := operator_index_ok B i hi (by rw [hs]; exact h)
  rw [hk, e2] at e4
  simp only [Option.some.injEq] at e4
  subst e4
  exact ⟨x, e3, e1⟩

/-- Witness for C8: a source of size 2 and capacity 4. -/
theorem ctor_copy_spec_witness :
    ∃ B, vector.ctor_copy (⟨2, 4, some [7, 8, 0, 0]⟩ : vector Nat)
        = (⟨2, 4, some [7, 8, 0, 0]⟩, .ok B) ∧
      vector.size B = 2 ∧ vector.capacity B = 4 ∧ vector_buf.contents B = [7, 8] := by
  obtain ⟨B, e, h1, h2, h3, _⟩ :=
    ctor_copy_spec (⟨2, 4, some [7, 8, 0, 0]⟩ : vector Nat) (by decide)
  exact ⟨B, e, by rw [h1]; decide, by rw [h2]; decide, by rw [h3]; decide⟩

/-- C9 (copy assignment).  After `a = b` the size, capacity and elements of `a`
equal those of `b`, and `b` is as it was; after the self-assignment `a = a`
the size, capacity and elements of `a` are as they were. -/
theorem operator_assign_spec {T : Type} [Inhabited T] (a b : vector T)
    (ha : vector_buf.inv a) (hb : vector_buf.inv b) :
    (∃ a', vector.operator_assign a b = (a', b, .ok ()) ∧
      vector.size a' = vector.size b ∧ vector.capacity a' = vector.capacity b ∧
      vector_buf.contents a' = vector_buf.contents b) ∧
    (∃ a', vector.operator_assign_self a = (a', .ok ()) ∧
      vector.size a' = vector.size a ∧ vector.capacity a' = vector.capacity a ∧
      vector_buf.contents a' = vector_buf.contents a) := by
  obtain ⟨v, e, _, hs, hc, hk⟩ := operator_assign_ok a b hb
  obtain ⟨w, e', _, hs', hc', hk'⟩ := operator_assign_self_ok a ha
  exact ⟨⟨v, e, hs, hc, hk⟩, ⟨w, e', hs', hc', hk'⟩⟩

/-- Witness for C9: `a = [1]` with capacity 1, `b = [7, 8]` with capacity 4. -/
theorem operator_assign_spec_witness :
    (∃ a', vector.operator_assign (⟨1, 1, some [1]⟩ : vector Nat) ⟨2, 4, some [7, 8, 0, 0]⟩
        = (a', ⟨2, 4, some [7, 8, 0, 0]⟩, .ok ()) ∧
      vector.size a' = 2 ∧ vector.capacity a' = 4 ∧ vector_buf.contents a' = [7, 8]) ∧
    (∃ a', vector.operator_assign_self (⟨1, 1, some [1]⟩ : vector Nat) = (a', .ok ()) ∧
      vector.size a' = 1 ∧ vector.capacity a' = 1 ∧ vector_buf.contents a' = [1]) := by
  obtain ⟨⟨v, e, h1, h2, h3⟩, ⟨w, e', h1', h2', h3'⟩⟩ :=
    operator_assign_spec (⟨1, 1, some [1]⟩ : vector Nat) ⟨2, 4, some [7, 8, 0, 0]⟩
      (by decide) (by decide)
  exact ⟨⟨v, e, by rw [h1]; decide, by rw [h2]; decide, by rw [h3]; decide⟩,
    ⟨w, e', by rw [h1']; decide, by rw [h2']; decide, by rw [h3']; decide⟩⟩

/-- C10 (move transfers the elements).  When `B` is produced from a vector `A`
by `vector(vector&&)` or by the move assignment `B = move(A)`, the operation
completes and `B` has the size `A` had and, at every index below it, the
element `A` had there. -/
theorem move_transfers {T : Type} [Inhabited T] (A : vector T) (hinv : vector_buf.inv A) :
    (∃ A' B, vector.ctor_move A = (A', .ok B) ∧ vector.size B = vector.size A ∧
      vector_buf.contents B = vector_buf.contents A ∧
      ∀ i, i < vector.size A → ∃ x, vector.operator_index B i = (B, .ok x) ∧
        vector.operator_index A i = (A, .ok x)) ∧
    (∀ B0 : vector T, ∃ A' B, vector.operator_assign_move B0 A = (B, A', .ok ()) ∧
      vector.size B = vector.size A ∧
      vector_buf.contents B = vector_buf.contents A ∧
      ∀ i, i < vector.size A → ∃ x, vector.operator_index B i = (B, .ok x) ∧
        vector.operator_index A i = (A, .ok x)) := by
  have hread : ∀ B : vector T, vector_buf.inv B → B.size_ = A.size_ →
      vector_buf.contents B = vector_buf.contents A →
      ∀ i, i < vector.size A → ∃ x, vector.operator_index B i = (B, .ok x) ∧
        vector.operator_index A i = (A, .ok x) := by
    intro B hi hs hk i h
    obtain ⟨x, e1, e2⟩ := operator_index_ok A i hinv h
    obtain ⟨y, e3, e4⟩ := operator_index_ok B i hi (by rw [hs]; exact h)
    rw [hk, e2] at e4
    simp only [Option.some.injEq] at e4
    subst e4
    exact ⟨x, e3, e1⟩
  constructor
  · obtain ⟨B, e, hi, hs, _, hk⟩ := ctor_copy_ok A hinv
    exact ⟨A, B, e, hs, hk, hread B hi hs hk⟩
  · intro B0
    obtain ⟨B, e, hi, hs, _, hk⟩ := operator_assign_move_ok B0 A hinv
    exact ⟨A, B, e, hs, hk, hread B hi hs hk⟩

/-- Witness for C10: moving from `[7, 8]`. -/
theorem move_transfers_witness :
    ∃ A' B, vector.ctor_move (⟨2, 2, some [7, 8]⟩ : vector Nat) = (A', .ok B) ∧
      vector.size B = 2 ∧ vector_buf.contents B = [7, 8] := by
  obtain ⟨⟨A', B, e, h1, h2, _⟩, _⟩ :=
    move_transfers (⟨2, 2, some [7, 8]⟩ : vector Nat) (by decide)
  exact ⟨A', B, e, by rw [h1]; decide, by rw [h2]; decide⟩

/-- C11 (the source of a move), evaluated on `A = [7]`: both
`vector(vector&&)` and the move assignment `B = move(A)` complete with
`B = [7]` and leave `A` as it was, so `A.size()` is 1 afterwards, not 0. -/
theorem move_keeps_source :
    vector.ctor_move (⟨1, 1, some [7]⟩ : vector Nat)
        = (⟨1, 1, some [7]⟩, .ok ⟨1, 1, some [7]⟩) ∧
      vector.size (vector.ctor_move (⟨1, 1, some [7]⟩ : vector Nat)).1 = 1 ∧
      vector.operator_assign_move vector.ctor_default (⟨1, 1, some [7]⟩ : vector Nat)
        = (⟨1, 1, some [7]⟩, ⟨1, 1, some [7]⟩, .ok ()) ∧
      vector.size
        (vector.operator_assign_move vector.ctor_default (⟨1, 1, some [7]⟩ : vector Nat)).2.1
          = 1 := by
  have h : vector_buf.ctor_copy (⟨1, 1, some [7]⟩ : vector_buf Nat)
      = (⟨1, 1, some [7]⟩, .ok ⟨1, 1, some [7]⟩) := by
    simp [vector_buf.ctor_copy, reserve_default 1 (by decide), for_loop, transfer_body, load,
      store, new_array, vector_buf.swap, bind, Except.bind, pure, Except.pure]
  refine ⟨h, ?_, ?_, ?_⟩
  · simp [vector.ctor_move, h, vector.size, vector_buf.size]
  · simp [vector.operator_assign_move, vector.ctor_copy, h, vector_buf.swap]
  · simp [vector.operator_assign_move, vector.ctor_copy, h, vector_buf.swap, vector.size,
      vector_buf.size]

/-- C12 (replicate construction).  For every `n`, zero included, and every
`x`, `vector(n, x)` completes with `size() == n`, `capacity() == n` and every
element at an index below `n` equal to `x`. -/
theorem ctor_fill_spec {T : Type} [Inhabited T] (n : Nat) (x : T) :
    ∃ v, vector.ctor_fill n x = .ok v ∧ vector.size v = n ∧ vector.capacity v = n ∧
      vector_buf.contents v = List.replicate n x ∧
      ∀ i, i < n → vector.operator_index v i = (v, .ok x) := by
  obtain ⟨v, e, hi, hs, hc, hk⟩ := ctor_fill_ok n x
  refine ⟨v, e, hs, hc, hk, ?_⟩
  intro i h
  obtain ⟨y, e1, e2⟩ := operator_index_ok v i hi (by rw [hs]; exact h)
  rw [hk, List.getElem?_replicate, if_pos h] at e2
  simp only [Option.some.injEq] at e2
  rw [e1, e2]

/-- C13 (size/capacity invariant).  Every state of an `se::vector` reachable
from its constructors by public operations, whether they returned or threw,
has `size() <= capacity()`, and `capacity() == 0` exactly when `buf_` is null. -/
theorem reachable_invariant {T : Type} [Inhabited T] [BEq T] (v : vector T)
    (h : vector.reachable v) :
    vector.size v ≤ vector.capacity v ∧ (vector.capacity v = 0 ↔ v.buf_ = none) := by
  have hinv := reachable_inv v h
  obtain ⟨s, c, b⟩ := v
  cases b with
  | none =>
    obtain ⟨h1, h2⟩ := inv_none hinv
    simp [vector.size, vector_buf.size, vector.capacity, h1, h2]
  | some a =>
    obtain ⟨h1, h2, _⟩ := inv_some hinv
    simp [vector.size, vector_buf.size, vector.capacity, h1, h2]

/-- Witness for C13: the state after `push_back(5)`, a rejected `reserve(0)`
and `erase(5)` on a default-constructed vector. -/
theorem reachable_invariant_witness :
    vector.size (vector.erase (vector.reserve
        (vector.push_back (vector.ctor_default : vector Nat) 5).1 0).1 5).1 ≤
      vector.capacity (vector.erase (vector.reserve
        (vector.push_back (vector.ctor_default : vector Nat) 5).1 0).1 5).1 ∧
    (vector.capacity (vector.erase (vector.reserve
        (vector.push_back (vector.ctor_default : vector Nat) 5).1 0).1 5).1 = 0 ↔
      (vector.erase (vector.reserve
        (vector.push_back (vector.ctor_default : vector Nat) 5).1 0).1 5).1.buf_ = none) :=
  reachable_invariant _
    (vector.reachable.erase _ 5 (vector.reachable.reserve _ 0
      (vector.reachable.push_back _ 5 vector.reachable.ctor_default)))

/-- C14 (doubling capacity).  After `N` calls of `push_back` on a
default-constructed vector the capacity is 0 when `N = 0` and otherwise the
smallest power of two that is at least `N`; one further `push_back` leaves the
capacity as it is unless the vector is full, and then takes it from 0 to 1 or
doubles it. -/
theorem push_back_capacity {T : Type} [Inhabited T] (vs : List T) :
    ∃ v, vector.push_back_all vector.ctor_default vs = (v, .ok ()) ∧
      (vs.length = 0 → vector.capacity v = 0) ∧
      (1 ≤ vs.length →
        ∃ k, vector.capacity v = 2 ^ k ∧ vs.length ≤ 2 ^ k ∧
          ∀ j, vs.length ≤ 2 ^ j → 2 ^ k ≤ 2 ^ j) ∧
      ∀ x, vector.capacity (vector.push_back v x).1 =
        if vector.size v = vector.capacity v then
          (if vector.capacity v = 0 then 1 else 2 * vector.capacity v)
        else vector.capacity v := by
  obtain ⟨v, e, hi, hs, _⟩ := push_back_all_ok vs vector.ctor_default inv_default
  have hs' : v.size_ = vs.length := by
    rw [hs]; simp [vector.ctor_default, vector_buf.ctor_default]
  refine ⟨v, e, ?_, ?_, ?_⟩
  · intro h0
    have : vs = [] := List.length_eq_zero.mp h0
    subst this
    simp only [vector.push_back_all, Prod.mk.injEq, and_true] at e
    rw [← e]
    rfl
  · intro h1
    have hne : vs ≠ [] := by
      intro h; rw [h] at h1; simp at h1
    obtain ⟨⟨k, g1, g2, g3⟩, _⟩ :=
      push_back_all_growth vs vector.ctor_default inv_default hne (Or.inl ⟨rfl, rfl⟩)
    rw [e] at g1 g2 g3
    simp only at g1 g2 g3
    rw [hs'] at g2 g3
    refine ⟨k, g1, g2, ?_⟩
    intro j hj
    by_cases hjk : k ≤ j
    · exact Nat.pow_le_pow_right (by decide) hjk
    · have h2 : 2 ^ (j + 1) ≤ 2 ^ k := Nat.pow_le_pow_right (by decide) (by omega)
      rw [Nat.pow_succ] at h2
      omega
  · intro x
    obtain ⟨w, e1, _, _, _, hc⟩ := push_back_ok v x hi
    rw [e1]
    simp only [vector.capacity, vector.size, vector_buf.size, hc]
    have hle : v.size_ ≤ v.capacity_ := hi.1
    by_cases h0 : v.capacity_ = 0
    · have : v.size_ = v.capacity_ := by omega
      simp [h0, this]
    · by_cases hf : v.size_ = v.capacity_
      · simp [h0, hf]
      · simp [h0, hf]

/-- C15 (relocations are linear).  Over `N ≥ 1` calls of `push_back` on a
default-constructed vector, the executions of the relocating assignment of
`reserve` (vector.h:110) number the final capacity minus one, which is less
than `2 * N`. -/
theorem push_back_relocations_linear {T : Type} [Inhabited T] (vs : List T)
    (hN : 1 ≤ vs.length) :
    vector.push_back_all_relocations vector.ctor_default vs =
        vector.capacity (vector.push_back_all vector.ctor_default vs).1 - 1 ∧
      vector.push_back_all_relocations vector.ctor_default vs < 2 * vs.length := by
  have hne : vs ≠ [] := by
    intro h; rw [h] at hN; simp at hN
  obtain ⟨v, e, _, hs, _⟩ := push_back_all_ok vs vector.ctor_default inv_default
  have hs' : v.size_ = vs.length := by
    rw [hs]; simp [vector.ctor_default, vector_buf.ctor_default]
  obtain ⟨⟨k, g1, g2, g3⟩, r⟩ :=
    push_back_all_growth vs vector.ctor_default inv_default hne (Or.inl ⟨rfl, rfl⟩)
  rw [e] at g1 g2 g3 r
  simp only at g1 g2 g3 r
  have r' : vector.push_back_all_relocations vector.ctor_default vs = v.capacity_ - 1 := by
    have h0 : (vector.ctor_default : vector T).capacity_ - 1 = 0 := rfl
    omega
  rw [e]
  refine ⟨r', ?_⟩
  rw [r', g1]
  omega

/-- Witness for C15: three calls relocate 0 + 1 + 2 elements. -/
theorem push_back_relocations_linear_witness :
    vector.push_back_all_relocations (vector.ctor_default : vector Nat) [7, 8, 9] =
        vector.capacity (vector.push_back_all (vector.ctor_default : vector Nat) [7, 8, 9]).1 - 1 ∧
      vector.push_back_all_relocations (vector.ctor_default : vector Nat) [7, 8, 9]
        < 2 * [7, 8, 9].length :=
  push_back_relocations_linear [7, 8, 9] (by decide)

/-- C16 (`empty`).  The body of `vector::empty` (vector.h:200) calls a member
`empty` of `vector_buf<T>`, and `vector_buf` declares no member of that name:
the call has nothing to resolve to. -/
theorem empty_callee_undeclared : vector.empty_callee ∉ vector_buf.declared_members := by
  decide

/-- C17 (invariants after `vector_buf(vector_buf&&)`), evaluated on the buffer
`[7]` of capacity 1: the new object satisfies the invariant, while the
moved-from source keeps size 1 and capacity 1 with `buf_` null, which breaks
`capacity == 0` iff unallocated; `erase` on it then reads through the null
pointer. -/
theorem ctor_move_breaks_source :
    vector_buf.inv (vector_buf.ctor_move (⟨1, 1, some [7]⟩ : vector_buf Nat)).2 ∧
      (vector_buf.ctor_move (⟨1, 1, some [7]⟩ : vector_buf Nat)).1 = ⟨1, 1, none⟩ ∧
      ¬ vector_buf.inv (vector_buf.ctor_move (⟨1, 1, some [7]⟩ : vector_buf Nat)).1 ∧
      (vector_buf.erase (vector_buf.ctor_move (⟨1, 1, some [7]⟩ : vector_buf Nat)).1 7).2
        = .error .undefined_behaviour := by
  refine ⟨by decide, rfl, by decide, rfl⟩

/-- C18 (push_back appends).  On a vector with logical contents `L`,
`push_back(v)` returns with `size() == old size + 1` and contents `L` followed
by `v`, in each growth branch: no reservation, first allocation, and doubling
with relocation. -/
theorem push_back_appends {T : Type} [Inhabited T] (this : vector T) (x : T)
    (hinv : vector_buf.inv this) :
    ∃ v, vector.push_back this x = (v, .ok ()) ∧
      vector.size v = vector.size this + 1 ∧
      vector_buf.contents v = vector_buf.contents this ++ [x] ∧
      vector.operator_index v (vector.size this) = (v, .ok x) := by
  obtain ⟨v, e, hi, hs, hk, _⟩ := push_back_ok this x hinv
  refine ⟨v, e, hs, hk, ?_⟩
  obtain ⟨y, e1, e2⟩ := operator_index_ok v (vector.size this) hi (by
    simp only [vector.size, vector_buf.size]; omega)
  have hlen : (vector_buf.contents this).length = vector.size this := contents_length hinv
  rw [hk, List.getElem?_append_right (by omega), hlen] at e2
  simp only [Nat.sub_self, List.getElem?_cons_zero, Option.some.injEq] at e2
  rw [e1, e2]

/-- Witness for C18: the doubling branch, on the full vector `[7, 8]`. -/
theorem push_back_appends_witness :
    ∃ v, vector.push_back (⟨2, 2, some [7, 8]⟩ : vector Nat) 9 = (v, .ok ()) ∧
      vector.size v = 3 ∧ vector_buf.contents v = [7, 8, 9] := by
  obtain ⟨v, e, h1, h2, _⟩ :=
    push_back_appends (⟨2, 2, some [7, 8]⟩ : vector Nat) 9 (by decide)
  exact ⟨v, e, by rw [h1]; decide, by rw [h2]; decide⟩

/-- C19 (capacity after push_back).  On a vector, the capacity after one
`push_back` is 1 when the old capacity was 0, `2 * old size` when the old size
equalled a positive old capacity, and the old capacity in every other case,
`size == 0` with `capacity > 0` included; it is never below the old capacity. -/
theorem push_back_capacity_step {T : Type} [Inhabited T] (this : vector T) (x : T)
    (hinv : vector_buf.inv this) :
    (vector.capacity this = 0 → vector.capacity (vector.push_back this x).1 = 1) ∧
      (0 < vector.capacity this → vector.size this = vector.capacity this →
        vector.capacity (vector.push_back this x).1 = 2 * vector.size this) ∧
      (0 < vector.capacity this → vector.size this ≠ vector.capacity this →
        vector.capacity (vector.push_back this x).1 = vector.capacity this) ∧
      vector.capacity this ≤ vector.capacity (vector.push_back this x).1 := by
  obtain ⟨v, e, _, _, _, hc⟩ := push_back_ok this x hinv
  have hle : this.size_ ≤ this.capacity_ := hinv.1
  rw [e]
  simp only [vector.capacity, vector.size, vector_buf.size, hc]
  refine ⟨?_, ?_, ?_, ?_⟩
  · intro h0; rw [if_pos h0]
  · intro h0 hf; rw [if_neg (by omega), if_pos hf]
  · intro h0 hf; rw [if_neg (by omega), if_neg hf]
  · by_cases h0 : this.capacity_ = 0
    · rw [if_pos h0]; omega
    · by_cases hf : this.size_ = this.capacity_
      · rw [if_neg h0, if_pos hf]; omega
      · rw [if_neg h0, if_neg hf]

/-- Witness for C19: a cleared vector of capacity 4 keeps its capacity. -/
theorem push_back_capacity_step_witness :
    vector.capacity (vector.push_back (⟨0, 4, some [7, 8, 9, 0]⟩ : vector Nat) 5).1 = 4 :=
  (push_back_capacity_step (⟨0, 4, some [7, 8, 9, 0]⟩ : vector Nat) 5 (by decide)).2.2.1
    (by decide) (by decide)

/-- C20 (move is copy).  The move assignment `a = move(b)` ends exactly as the
copy assignment `a = b` does, with the same `a`, the same `b` and the same
outcome, and `vector(vector&&)` applied to `b` ends exactly as
`vector(const vector&)` does, with the same new object and the same `b`. -/
theorem move_is_copy {T : Type} [Inhabited T] (a b : vector T) :
    vector.operator_assign_move a b = vector.operator_assign a b ∧
      vector.ctor_move b = vector.ctor_copy b := by
  exact ⟨rfl, rfl⟩
